import Mathlib

/-!
Verification of the opskins-parser inventory valuation pipeline.

The development is a shallow embedding of `src/index.js`:
* `retry` models the bounded-attempt retry loop (`retry`, lines 25-36);
  an attempt function `fn : Nat → Except ε α` gives the outcome of the
  i-th attempt, and the JS `undefined` returned when `retries = 0` is
  modelled by `Option.none`.
* `chunks` models the slice loop of `processInBatches` (lines 103-130),
  `processOne`/`processInBatches` its per-id cache/fetch/log behaviour.
  The cache is an association list keyed by steam id (the dump file
  `<id>.json` with its extension stripped); a `none` content models a
  file whose text `JSON.parse` cannot decode.
* `enrichEntry`/`enrichFile`/`processData` model the enrichment pass
  (lines 131-166) including its skip-with-diagnostic branches, and
  `processData` propagates the `JSON.parse` exception of a corrupt
  dump file as `Except.error`.
* `addToBucket`/`groupBy` model the repeated `reduce` aggregation
  pattern (lines 196-207, 230-243, 263-276, 292-305, 335-349, 413-424),
  `sortBuckets` the stable `Array.prototype.sort` on the comparator
  `(a, b) => b[1].price - a[1].price`, and `csvLines`/`csvFile` the CSV
  export (lines 426-444).
-/

namespace Opskins

/-! ## Data model -/

/-- A per-source price record: the `buff` object of the price catalog. -/
structure Buff where
  price : Int
  deriving DecidableEq, Repr

/-- One catalog entry, as returned by the price endpoint: possibly
missing `buff` source (`const { buff } = prices[name]` may destructure
`undefined`). -/
structure PriceEntry where
  buff : Option Buff
  deriving DecidableEq, Repr

/-- `prices`: the catalog object, a map from market hash name to entry;
`none` models an absent key. -/
abbrev PriceCatalog : Type := String → Option PriceEntry

/-- The nested item descriptor (`item.item`). -/
structure Descriptor where
  market_hash_name : String
  category : String
  weapon_name : Option String
  deriving DecidableEq, Repr

/-- An addon/customization descriptor (a sticker). -/
structure Addon where
  name : String
  deriving DecidableEq, Repr

/-- A raw inventory entry; `item = none` models a falsy `item.item`. -/
structure RawItem where
  asset_id : String
  d : String
  item : Option Descriptor
  addons : Option (List Addon)
  deriving DecidableEq, Repr

/-- The inventory payload `{ items: [...] }`. -/
structure Inventory where
  items : List RawItem
  deriving DecidableEq, Repr

/-- An enriched item as pushed by `processData` (lines 156-162). -/
structure EnrichedItem where
  asset_id : String
  d : String
  item : Descriptor
  addons : Option (List Addon)
  steam_id : String
  inspect_url : String
  price : Int
  deriving DecidableEq, Repr

/-! ## RetryingFetcher (`retry`, lines 25-36) -/

/-- The body of `retry`'s `for` loop: `i` is the current attempt index,
the second argument the number of attempts still allowed (so the JS
guard `i === retries - 1` is `fuel = 0` here).  `none` is the JS
`undefined` falling out of the loop when no attempt is allowed. -/
def retryGo (fn : Nat → Except ε α) : Nat → Nat → Option (Except ε α)
  | _, 0 => none
  | i, fuel + 1 =>
    match fn i with
    | .ok a => some (.ok a)
    | .error e => if fuel = 0 then some (.error e) else retryGo fn (i + 1) fuel

/-- `retry(fn, retries)`: run attempts `0, 1, ...` up to `retries` of
them, returning the first success, or the last error once exhausted. -/
def retry (fn : Nat → Except ε α) (retries : Nat) : Option (Except ε α) :=
  retryGo fn 0 retries

/-- Number of attempts the loop actually executes. -/
def attemptsGo (fn : Nat → Except ε α) : Nat → Nat → Nat
  | _, 0 => 0
  | i, fuel + 1 =>
    match fn i with
    | .ok _ => 1
    | .error _ => if fuel = 0 then 1 else 1 + attemptsGo fn (i + 1) fuel

/-- Number of attempts `retry fn retries` makes. -/
def attemptsMade (fn : Nat → Except ε α) (retries : Nat) : Nat :=
  attemptsGo fn 0 retries

theorem retryGo_first_success (fn : Nat → Except ε α) :
    ∀ (k i fuel : Nat) (a : α), k < fuel → fn (i + k) = .ok a →
      (∀ j, j < k → ∃ e, fn (i + j) = .error e) →
      retryGo fn i fuel = some (.ok a) ∧ attemptsGo fn i fuel = k + 1 := by
  intro k
  induction k with
  | zero =>
    intro i fuel a hk hok _
    obtain ⟨m, rfl⟩ : ∃ m, fuel = m + 1 := ⟨fuel - 1, by omega⟩
    simp only [Nat.add_zero] at hok
    constructor
    · simp [retryGo, hok]
    · simp [attemptsGo, hok]
  | succ k ih =>
    intro i fuel a hk hok herr
    obtain ⟨m, rfl⟩ : ∃ m, fuel = m + 1 := ⟨fuel - 1, by omega⟩
    obtain ⟨e, he⟩ := herr 0 (Nat.succ_pos k)
    simp only [Nat.add_zero] at he
    have hm : m ≠ 0 := by omega
    have hrec := ih (i + 1) m a (by omega)
      (by rw [show i + 1 + k = i + (k + 1) by omega]; exact hok)
      (by
        intro j hj
        obtain ⟨e', he'⟩ := herr (j + 1) (by omega)
        exact ⟨e', by rw [show i + 1 + j = i + (j + 1) by omega]; exact he'⟩)
    constructor
    · simp [retryGo, he, hm, hrec.1]
    · simp [attemptsGo, he, hm, hrec.2]
      omega

theorem retryGo_all_fail (fn : Nat → Except ε α) :
    ∀ (fuel i : Nat) (e : ε), 0 < fuel →
      (∀ j, j < fuel → ∃ e', fn (i + j) = .error e') →
      fn (i + (fuel - 1)) = .error e →
      retryGo fn i fuel = some (.error e) := by
  intro fuel
  induction fuel with
  | zero => intro i e h; omega
  | succ m ih =>
    intro i e _ herr hlast
    by_cases hm : m = 0
    · subst hm
      have hlast' : fn i = .error e := by simpa using hlast
      simp [retryGo, hlast']
    · obtain ⟨e₀, he₀⟩ := herr 0 (Nat.succ_pos m)
      simp only [Nat.add_zero] at he₀
      have hrec := ih (i + 1) e (by omega)
        (by
          intro j hj
          obtain ⟨e', he'⟩ := herr (j + 1) (by omega)
          exact ⟨e', by rw [show i + 1 + j = i + (j + 1) by omega]; exact he'⟩)
        (by rw [show i + 1 + (m - 1) = i + (m + 1 - 1) by omega]; exact hlast)
      simp [retryGo, he₀, hm, hrec]

/-! ## BatchScheduler chunking (`processInBatches`, lines 103-130)

The `for` loop `for (let i = 0; i < steamIds.length; i += batchSize)`
with `steamIds.slice(i, i + batchSize)` partitions the id list into
consecutive chunks.  The loop is modelled with fuel (`ids.length`
iterations always suffice when `batchSize > 0`; with `batchSize = 0`
the JS loop never advances, which the fuel cuts off). -/

def chunksGo (b : Nat) : Nat → List α → List (List α)
  | 0, _ => []
  | _ + 1, [] => []
  | fuel + 1, x :: xs => ((x :: xs).take b) :: chunksGo b fuel ((x :: xs).drop b)

/-- The list of batches `processInBatches` runs, in processing order. -/
def chunks (ids : List α) (b : Nat) : List (List α) :=
  chunksGo b ids.length ids

theorem chunksGo_join (b : Nat) (hb : 0 < b) :
    ∀ (fuel : Nat) (ids : List α), ids.length ≤ fuel →
      (chunksGo b fuel ids).flatten = ids := by
  intro fuel
  induction fuel with
  | zero =>
    intro ids h
    have : ids = [] := List.eq_nil_of_length_eq_zero (by omega)
    simp [this, chunksGo]
  | succ m ih =>
    intro ids h
    match ids with
    | [] => simp [chunksGo]
    | x :: xs =>
      have hlen : ((x :: xs).drop b).length ≤ m := by
        simp only [List.length_drop, List.length_cons] at *
        omega
      simp only [chunksGo, List.flatten_cons]
      rw [ih _ hlen, List.take_append_drop]

theorem chunksGo_mem (b : Nat) (hb : 0 < b) :
    ∀ (fuel : Nat) (ids : List α) (c : List α), c ∈ chunksGo b fuel ids →
      c.length ≤ b ∧ c ≠ [] := by
  intro fuel
  induction fuel with
  | zero => intro ids c hc; simp [chunksGo] at hc
  | succ m ih =>
    intro ids c hc
    match ids with
    | [] => simp [chunksGo] at hc
    | x :: xs =>
      simp only [chunksGo, List.mem_cons] at hc
      rcases hc with rfl | hc
      · refine ⟨by simp [List.length_take], ?_⟩
        have : 0 < ((x :: xs).take b).length := by
          simp [List.length_take]
          omega
        intro hnil
        rw [hnil] at this
        simp at this
      · exact ih _ c hc

/-- Partition property of the scheduler's chunking: the chunks
concatenate back to the id list and each chunk is nonempty of size at
most `b`. -/
theorem chunks_join (ids : List α) (b : Nat) (hb : 0 < b) :
    (chunks ids b).flatten = ids :=
  chunksGo_join b hb ids.length ids (Nat.le_refl _)

theorem chunks_mem (ids : List α) (b : Nat) (hb : 0 < b) :
    ∀ c ∈ chunks ids b, c.length ≤ b ∧ c ≠ [] :=
  fun c hc => chunksGo_mem b hb ids.length ids c hc

/-! ## CacheStore and the per-id fetch of the batch phase

The dump directory is an association list from steam id (dump file name
without its `.json` extension) to file content; `none` content models a
file whose text `JSON.parse` rejects.  `fetchOne` abstracts the retried
network call `retry(async () => ...)` of `fetchInventory`: its value is
the overall outcome after the retry loop (related to `retry` above).

`processOne` is one `batch.map` body of `processInBatches` (lines
109-118): a cache hit returns the parsed dump (a corrupt dump throws,
which the per-id `catch` turns into a log line); a miss fetches and on
success writes the dump; a fetch error is caught and logged with the
offending id and reason.  `processInBatches` folds `processOne` over
the in-order concatenation of the chunks, threading the cache state and
accumulating the log. -/

abbrev CacheState : Type := List (String × Option Inventory)

/-- `fs.existsSync` plus the read: the content stored for a steam id. -/
def lookupFile : CacheState → String → Option (Option Inventory)
  | [], _ => none
  | (k, v) :: rest, sid => if k = sid then some v else lookupFile rest sid

/-- Processing of one steam id inside a batch: state is the cache
paired with the log of `(id, failure reason)` lines. -/
def processOne (fetchOne : String → Except String Inventory)
    (st : CacheState × List (String × String)) (sid : String) :
    CacheState × List (String × String) :=
  match lookupFile st.1 sid with
  | some (some _) => st
  | some none => (st.1, st.2 ++ [(sid, "Unexpected token in JSON")])
  | none =>
    match fetchOne sid with
    | .ok inv => (st.1 ++ [(sid, some inv)], st.2)
    | .error e => (st.1, st.2 ++ [(sid, e)])

/-- The whole batch phase: final cache state and failure log. -/
def processInBatches (fetchOne : String → Except String Inventory)
    (cache : CacheState) (ids : List String) (b : Nat) :
    CacheState × List (String × String) :=
  ((chunks ids b).flatten).foldl (processOne fetchOne) (cache, [])

theorem lookupFile_append (c d : CacheState) (sid : String) :
    lookupFile (c ++ d) sid =
      match lookupFile c sid with
      | some v => some v
      | none => lookupFile d sid := by
  induction c with
  | nil => simp [lookupFile]
  | cons p rest ih =>
    by_cases h : p.1 = sid
    · simp [lookupFile, h]
    · simpa [lookupFile, h] using ih

theorem lookupFile_eq_none_iff (c : CacheState) (sid : String) :
    lookupFile c sid = none ↔ ∀ v, (sid, v) ∉ c := by
  induction c with
  | nil => simp [lookupFile]
  | cons p rest ih =>
    by_cases h : p.1 = sid
    · constructor
      · intro hl; simp [lookupFile, h] at hl
      · intro hv
        exfalso
        exact hv p.2 (by rw [← h]; exact List.mem_cons_self _ _)
    · simp only [lookupFile, h, if_false, ih]
      constructor
      · intro hv v hmem
        rcases List.mem_cons.mp hmem with heq | hmem'
        · exact h (by rw [← heq])
        · exact hv v hmem'
      · intro hv v hmem
        exact hv v (List.mem_cons_of_mem _ hmem)

/-- One step of the batch phase only appends cache entries that were
successfully fetched, and only appends log lines. -/
theorem processOne_shape (fetchOne : String → Except String Inventory)
    (st : CacheState × List (String × String)) (sid : String) :
    ∃ (cext : CacheState) (lext : List (String × String)),
      (processOne fetchOne st sid).1 = st.1 ++ cext ∧
      (processOne fetchOne st sid).2 = st.2 ++ lext ∧
      (∀ p ∈ cext, p.1 = sid ∧ ∃ inv, p.2 = some inv ∧ fetchOne sid = .ok inv) := by
  unfold processOne
  match h : lookupFile st.1 sid with
  | some (some inv) => exact ⟨[], [], by simp, by simp, by simp⟩
  | some none =>
    exact ⟨[], [(sid, "Unexpected token in JSON")], by simp, by simp, by simp⟩
  | none =>
    match hf : fetchOne sid with
    | .ok inv =>
      exact ⟨[(sid, some inv)], [], by simp, by simp, by simp [hf]⟩
    | .error e => exact ⟨[], [(sid, e)], by simp, by simp, by simp⟩

/-- Folding the batch phase over any id sequence only extends the cache
with successfully fetched dumps and only extends the log. -/
theorem foldl_processOne_shape (fetchOne : String → Except String Inventory)
    (l : List String) :
    ∀ (st : CacheState × List (String × String)),
      ∃ (cext : CacheState) (lext : List (String × String)),
        (l.foldl (processOne fetchOne) st).1 = st.1 ++ cext ∧
        (l.foldl (processOne fetchOne) st).2 = st.2 ++ lext ∧
        (∀ p ∈ cext, p.1 ∈ l ∧ ∃ inv, p.2 = some inv ∧ fetchOne p.1 = .ok inv) := by
  induction l with
  | nil => intro st; exact ⟨[], [], by simp, by simp, by simp⟩
  | cons x xs ih =>
    intro st
    obtain ⟨c1, l1, hc1, hl1, hp1⟩ := processOne_shape fetchOne st x
    obtain ⟨c2, l2, hc2, hl2, hp2⟩ := ih (processOne fetchOne st x)
    refine ⟨c1 ++ c2, l1 ++ l2, ?_, ?_, ?_⟩
    · simp only [List.foldl_cons, hc2, hc1, List.append_assoc]
    · simp only [List.foldl_cons, hl2, hl1, List.append_assoc]
    · intro p hp
      rcases List.mem_append.mp hp with h1 | h2
      · obtain ⟨hid, inv, hinv, hok⟩ := hp1 p h1
        exact ⟨by rw [hid]; exact List.mem_cons_self _ _, inv, hinv, by rw [hid]; exact hok⟩
      · obtain ⟨hid, hrest⟩ := hp2 p h2
        exact ⟨List.mem_cons_of_mem _ hid, hrest⟩

/-- Entries already in the cache are never touched by the batch phase. -/
theorem foldl_processOne_preserves (fetchOne : String → Except String Inventory)
    (l : List String) (st : CacheState × List (String × String))
    (sid : String) (v : Option Inventory) (h : lookupFile st.1 sid = some v) :
    lookupFile (l.foldl (processOne fetchOne) st).1 sid = some v := by
  obtain ⟨cext, _, hc, _, _⟩ := foldl_processOne_shape fetchOne l st
  rw [hc, lookupFile_append, h]

/-- A per-id fetch failure on a cache miss is caught and logged with the
offending id and the failure reason; the log line survives to the end of
the run. -/
theorem foldl_processOne_logs_failure (fetchOne : String → Except String Inventory)
    (l : List String) :
    ∀ (st : CacheState × List (String × String)) (id : String) (e : String),
      id ∈ l → lookupFile st.1 id = none → fetchOne id = .error e →
      (id, e) ∈ (l.foldl (processOne fetchOne) st).2 := by
  induction l with
  | nil => intro st id e h; simp at h
  | cons x xs ih =>
    intro st id e hmem hnone herr
    by_cases hx : x = id
    · subst hx
      have hstep : processOne fetchOne st x = (st.1, st.2 ++ [(x, e)]) := by
        unfold processOne
        rw [hnone, herr]
      obtain ⟨_, lext, _, hl, _⟩ :=
        foldl_processOne_shape fetchOne xs (processOne fetchOne st x)
      simp only [List.foldl_cons]
      rw [hl, hstep]
      simp
    · have hxs : id ∈ xs := by
        rcases List.mem_cons.mp hmem with h | h
        · exact absurd h.symm hx
        · exact h
      obtain ⟨cext, lext, hc, hl, hp⟩ := processOne_shape fetchOne st x
      have hnone' : lookupFile (processOne fetchOne st x).1 id = none := by
        rw [hc, lookupFile_append, hnone]
        rw [lookupFile_eq_none_iff]
        intro v hv
        exact hx ((hp (id, v) hv).1.symm)
      simp only [List.foldl_cons]
      exact ih (processOne fetchOne st x) id e hxs hnone' herr

/-- A successfully fetched id ends the batch phase with its dump stored:
failures of other ids never prevent it from being processed. -/
theorem foldl_processOne_stores_success (fetchOne : String → Except String Inventory)
    (l : List String) :
    ∀ (st : CacheState × List (String × String)) (id : String) (inv : Inventory),
      id ∈ l → lookupFile st.1 id = none → fetchOne id = .ok inv →
      lookupFile (l.foldl (processOne fetchOne) st).1 id = some (some inv) := by
  induction l with
  | nil => intro st id inv h; simp at h
  | cons x xs ih =>
    intro st id inv hmem hnone hok
    by_cases hx : x = id
    · subst hx
      have hstep : processOne fetchOne st x = (st.1 ++ [(x, some inv)], st.2) := by
        unfold processOne
        rw [hnone, hok]
      have hlook : lookupFile (processOne fetchOne st x).1 x = some (some inv) := by
        rw [hstep]
        rw [lookupFile_append, hnone]
        simp [lookupFile]
      simp only [List.foldl_cons]
      exact foldl_processOne_preserves fetchOne xs _ x (some inv) hlook
    · have hxs : id ∈ xs := by
        rcases List.mem_cons.mp hmem with h | h
        · exact absurd h.symm hx
        · exact h
      obtain ⟨cext, lext, hc, hl, hp⟩ := processOne_shape fetchOne st x
      have hnone' : lookupFile (processOne fetchOne st x).1 id = none := by
        rw [hc, lookupFile_append, hnone]
        rw [lookupFile_eq_none_iff]
        intro v hv
        exact hx ((hp (id, v) hv).1.symm)
      simp only [List.foldl_cons]
      exact ih (processOne fetchOne st x) id inv hxs hnone' hok

/-! ## Enricher (`processData`, lines 131-166)

`processData` lists the dump directory and flattens every dump file into
enriched items; the steam id is recovered from the file name
(`file.split(".")[0]`), modelled here by keying the cache by steam id.
A raw entry with a falsy `item` descriptor is skipped with a console
diagnostic, and an entry whose `market_hash_name` has no key in
`prices` is also skipped with a console diagnostic (lines 143-152).
An included entry gets `price: buff?.price || 0` (line 161).  The
`JSON.parse` of a corrupt dump file (line 137) throws, which surfaces
as `Except.error` — `processData` has no handler. -/

/-- The preview deep link template of line 160. -/
def inspectUrl (steamId assetId dParam : String) : String :=
  "steam://rungame/730/76561202255233023/+csgo_econ_action_preview%20S"
    ++ steamId ++ "A" ++ assetId ++ "D" ++ dParam

/-- `buff?.price || 0`: the buff source price, or 0 when the catalog
entry has no buff record (a falsy `buff.price` is also 0). -/
def buffPrice (entry : PriceEntry) : Int :=
  match entry.buff with
  | some b => b.price
  | none => 0

/-- One iteration of the `inventory.items.forEach` body: `none` when the
entry is skipped, otherwise the pushed enriched item. -/
def enrichEntry (prices : PriceCatalog) (steamId : String) (it : RawItem) :
    Option EnrichedItem :=
  match it.item with
  | none => none
  | some desc =>
    match prices desc.market_hash_name with
    | none => none
    | some entry => some {
        asset_id := it.asset_id
        d := it.d
        item := desc
        addons := it.addons
        steam_id := steamId
        inspect_url := inspectUrl steamId it.asset_id it.d
        price := buffPrice entry }

/-- The console diagnostic the same iteration prints when it skips. -/
def entryDiagnostic (prices : PriceCatalog) (it : RawItem) : Option String :=
  match it.item with
  | none => some "Item not found in inventory"
  | some desc =>
    match prices desc.market_hash_name with
    | none => some ("Price not found for item: " ++ desc.market_hash_name)
    | some _ => none

/-- All enriched items produced from one dump file. -/
def enrichFile (prices : PriceCatalog) (steamId : String) (inv : Inventory) :
    List EnrichedItem :=
  inv.items.filterMap (enrichEntry prices steamId)

/-- All skip diagnostics produced from one dump file. -/
def fileDiagnostics (prices : PriceCatalog) (inv : Inventory) : List String :=
  inv.items.filterMap (entryDiagnostic prices)

/-- `processData`: flatten every dump file; a file whose content cannot
be decoded makes the whole pass throw. -/
def processData (prices : PriceCatalog) :
    List (String × Option Inventory) → Except String (List EnrichedItem)
  | [] => .ok []
  | (sid, none) :: _ => .error ("Unexpected token in JSON: " ++ sid)
  | (sid, some inv) :: rest =>
    match processData prices rest with
    | .ok items => .ok (enrichFile prices sid inv ++ items)
    | .error e => .error e

/-- The items `processData` returns when every dump file decodes. -/
def okItems (prices : PriceCatalog) :
    List (String × Option Inventory) → List EnrichedItem
  | [] => []
  | (_, none) :: rest => okItems prices rest
  | (sid, some inv) :: rest => enrichFile prices sid inv ++ okItems prices rest

/-- The whole pipeline after the bootstrap: batch fetch phase over the
dump directory, then enrichment of everything the directory holds. -/
def runEnriched (prices : PriceCatalog) (fetchOne : String → Except String Inventory)
    (cache : CacheState) (ids : List String) (b : Nat) :
    Except String (List EnrichedItem) :=
  processData prices (processInBatches fetchOne cache ids b).1

theorem enrichEntry_some_iff (prices : PriceCatalog) (sid : String)
    (it : RawItem) (x : EnrichedItem) :
    enrichEntry prices sid it = some x ↔
      ∃ desc entry, it.item = some desc ∧
        prices desc.market_hash_name = some entry ∧
        x = ⟨it.asset_id, it.d, desc, it.addons, sid,
              inspectUrl sid it.asset_id it.d, buffPrice entry⟩ := by
  unfold enrichEntry
  match hdesc : it.item with
  | none => simp
  | some desc =>
    match hentry : prices desc.market_hash_name with
    | none => simp [hentry]
    | some entry =>
      simp only [hentry, Option.some_inj]
      constructor
      · intro h; exact ⟨desc, entry, rfl, hentry, h.symm⟩
      · rintro ⟨desc', entry', hd, he, hx⟩
        obtain rfl : desc = desc' := hd
        rw [hentry] at he
        obtain rfl : entry = entry' := by injection he
        exact hx.symm

theorem enrichEntry_steam_id (prices : PriceCatalog) (sid : String)
    (it : RawItem) (x : EnrichedItem) (h : enrichEntry prices sid it = some x) :
    x.steam_id = sid := by
  obtain ⟨desc, entry, _, _, rfl⟩ := (enrichEntry_some_iff prices sid it x).mp h
  rfl

theorem processData_clean (prices : PriceCatalog)
    (files : List (String × Option Inventory)) (h : ∀ p ∈ files, p.2 ≠ none) :
    processData prices files = .ok (okItems prices files) := by
  induction files with
  | nil => rfl
  | cons p rest ih =>
    match p with
    | (sid, none) => exact absurd rfl (h (sid, none) (List.mem_cons_self _ _))
    | (sid, some inv) =>
      have := ih (fun q hq => h q (List.mem_cons_of_mem _ hq))
      simp [processData, okItems, this]

theorem mem_okItems (prices : PriceCatalog)
    (files : List (String × Option Inventory)) (sid : String) (inv : Inventory)
    (x : EnrichedItem) (hfile : (sid, some inv) ∈ files)
    (hx : x ∈ enrichFile prices sid inv) : x ∈ okItems prices files := by
  induction files with
  | nil => simp at hfile
  | cons p rest ih =>
    rcases List.mem_cons.mp hfile with heq | hmem
    · rw [← heq]
      simp only [okItems, List.mem_append]
      exact Or.inl hx
    · match p with
      | (_, none) => simpa [okItems] using ih hmem
      | (_, some _) =>
        simp only [okItems, List.mem_append]
        exact Or.inr (ih hmem)

theorem okItems_source (prices : PriceCatalog)
    (files : List (String × Option Inventory)) (x : EnrichedItem)
    (hx : x ∈ okItems prices files) :
    ∃ sid inv, (sid, some inv) ∈ files ∧ x ∈ enrichFile prices sid inv ∧
      x.steam_id = sid := by
  induction files with
  | nil => simp [okItems] at hx
  | cons p rest ih =>
    match p with
    | (sid, none) =>
      obtain ⟨sid', inv', hmem, hx', hs⟩ := ih (by simpa [okItems] using hx)
      exact ⟨sid', inv', List.mem_cons_of_mem _ hmem, hx', hs⟩
    | (sid, some inv) =>
      rcases List.mem_append.mp (by simpa [okItems] using hx) with h1 | h2
      · obtain ⟨it, _, hit⟩ := List.mem_filterMap.mp h1
        exact ⟨sid, inv, List.mem_cons_self _ _, h1,
          enrichEntry_steam_id prices sid it x hit⟩
      · obtain ⟨sid', inv', hmem, hx', hs⟩ := ih h2
        exact ⟨sid', inv', List.mem_cons_of_mem _ hmem, hx', hs⟩

/-! ## Aggregator

Every report dimension repeats the same `reduce` pattern (lines 196-207,
230-243, 263-276, 292-305, 335-349, 413-424):

    if (!acc[k]) acc[k] = { price: 0, count: 0 };
    acc[k].price += item.price; acc[k].count += 1;

The accumulator object is modelled as an association list in property
insertion order (which is what `Object.entries` and `for ... in`
enumerate for string keys). -/

/-- An aggregation bucket `{ price, count }`. -/
structure Bucket where
  price : Int
  count : Nat
  deriving DecidableEq, Repr

/-- Add one item's price to the bucket of key `k`, creating the bucket
at the end (JS property insertion order) when absent. -/
def addToBucket (acc : List (String × Bucket)) (k : String) (p : Int) :
    List (String × Bucket) :=
  match acc with
  | [] => [(k, ⟨p, 1⟩)]
  | (k', b) :: rest =>
    if k' = k then (k', ⟨b.price + p, b.count + 1⟩) :: rest
    else (k', b) :: addToBucket rest k p

/-- The whole `reduce(..., {})` of one report dimension. -/
def groupBy (keyOf : EnrichedItem → String) (items : List EnrichedItem) :
    List (String × Bucket) :=
  items.foldl (fun acc it => addToBucket acc (keyOf it) it.price) []

/-- `acc[k]` of the accumulator object. -/
def lookupBucket : List (String × Bucket) → String → Option Bucket
  | [], _ => none
  | (k', b) :: rest, k => if k' = k then some b else lookupBucket rest k

/-- Sum of the price fields of all buckets. -/
def sumBucketPrices (acc : List (String × Bucket)) : Int :=
  (acc.map (fun p => p.2.price)).sum

/-- `items.reduce((acc, item) => acc + item.price ?? 0, 0)` (line 187);
`??` binds looser than `+`, so this is a plain running sum. -/
def totalValue (items : List EnrichedItem) : Int :=
  items.foldl (fun acc it => acc + it.price) 0

theorem sumBucketPrices_addToBucket (acc : List (String × Bucket))
    (k : String) (p : Int) :
    sumBucketPrices (addToBucket acc k p) = sumBucketPrices acc + p := by
  induction acc with
  | nil => simp [addToBucket, sumBucketPrices]
  | cons q rest ih =>
    match q with
    | (k', b) =>
      by_cases h : k' = k
      · simp [addToBucket, h, sumBucketPrices]
        ring
      · simp only [addToBucket, h, if_false]
        simp only [sumBucketPrices, List.map_cons, List.sum_cons] at *
        rw [ih]
        ring

theorem lookupBucket_addToBucket (acc : List (String × Bucket))
    (k : String) (p : Int) (k' : String) :
    lookupBucket (addToBucket acc k p) k' =
      if k' = k then
        match lookupBucket acc k with
        | some b => some ⟨b.price + p, b.count + 1⟩
        | none => some ⟨p, 1⟩
      else lookupBucket acc k' := by
  induction acc with
  | nil =>
    by_cases h : k' = k
    · simp [addToBucket, lookupBucket, h]
    · have h' : ¬ k = k' := fun hkk => h hkk.symm
      simp [addToBucket, lookupBucket, h, h']
  | cons q rest ih =>
    match q with
    | (k₀, b₀) =>
      by_cases h0 : k₀ = k
      · subst h0
        by_cases h1 : k' = k₀
        · subst h1
          simp [addToBucket, lookupBucket]
        · have h1' : ¬ k₀ = k' := fun hkk => h1 hkk.symm
          simp [addToBucket, lookupBucket, h1, h1']
      · by_cases h1 : k₀ = k'
        · subst h1
          simp [addToBucket, lookupBucket, h0]
        · simp [addToBucket, lookupBucket, h0, h1, ih]

/-- Keys present in the accumulator. -/
theorem lookupBucket_isSome_of_add (acc : List (String × Bucket))
    (k : String) (p : Int) :
    (lookupBucket (addToBucket acc k p) k).isSome := by
  rw [lookupBucket_addToBucket]
  simp only [if_pos rfl]
  match lookupBucket acc k with
  | some b => rfl
  | none => rfl

theorem lookupBucket_isSome_mono (acc : List (String × Bucket))
    (k k' : String) (p : Int) (h : (lookupBucket acc k').isSome) :
    (lookupBucket (addToBucket acc k p) k').isSome := by
  rw [lookupBucket_addToBucket]
  by_cases hk : k' = k
  · simp only [hk, if_pos rfl]
    match lookupBucket acc k with
    | some b => rfl
    | none => rfl
  · simpa [hk] using h

/-- Aggregate price of the items a dimension sends to key `k`. -/
def keyPrice (keyOf : EnrichedItem → String) (items : List EnrichedItem)
    (k : String) : Int :=
  ((items.filter (fun it => decide (keyOf it = k))).map (fun it => it.price)).sum

/-- Number of items a dimension sends to key `k`. -/
def keyCount (keyOf : EnrichedItem → String) (items : List EnrichedItem)
    (k : String) : Nat :=
  (items.filter (fun it => decide (keyOf it = k))).length

theorem sumBucketPrices_groupFold (keyOf : EnrichedItem → String)
    (items : List EnrichedItem) :
    ∀ acc : List (String × Bucket),
      sumBucketPrices
          (items.foldl (fun acc it => addToBucket acc (keyOf it) it.price) acc) =
        sumBucketPrices acc + (items.map (fun it => it.price)).sum := by
  induction items with
  | nil => intro acc; simp
  | cons it rest ih =>
    intro acc
    simp only [List.foldl_cons, List.map_cons, List.sum_cons]
    rw [ih, sumBucketPrices_addToBucket]
    ring

theorem totalValue_eq_sum (items : List EnrichedItem) :
    totalValue items = (items.map (fun it => it.price)).sum := by
  suffices h : ∀ c : Int,
      items.foldl (fun acc it => acc + it.price) c =
        c + (items.map (fun it => it.price)).sum by
    simpa using h 0
  induction items with
  | nil => intro c; simp
  | cons it rest ih =>
    intro c
    simp only [List.foldl_cons, List.map_cons, List.sum_cons]
    rw [ih]
    ring

theorem lookupBucket_groupFold (keyOf : EnrichedItem → String)
    (items : List EnrichedItem) :
    ∀ (acc : List (String × Bucket)) (k : String),
      lookupBucket
          (items.foldl (fun acc it => addToBucket acc (keyOf it) it.price) acc) k =
        match lookupBucket acc k with
        | some b => some ⟨b.price + keyPrice keyOf items k,
                          b.count + keyCount keyOf items k⟩
        | none =>
          if keyCount keyOf items k = 0 then none
          else some ⟨keyPrice keyOf items k, keyCount keyOf items k⟩ := by
  induction items with
  | nil =>
    intro acc k
    match h : lookupBucket acc k with
    | some b => simp [keyPrice, keyCount, h]
    | none => simp [keyPrice, keyCount, h]
  | cons it rest ih =>
    intro acc k
    simp only [List.foldl_cons]
    rw [ih (addToBucket acc (keyOf it) it.price) k, lookupBucket_addToBucket]
    by_cases hk : k = keyOf it
    · have hfil : (fun i => decide (keyOf i = k)) it = true := by
        simp [hk]
      have hkp : keyPrice keyOf (it :: rest) k = it.price + keyPrice keyOf rest k := by
        simp [keyPrice, List.filter_cons, hfil]
      have hkc : keyCount keyOf (it :: rest) k = 1 + keyCount keyOf rest k := by
        simp [keyCount, List.filter_cons, hfil]
        omega
      rw [if_pos hk, ← hk]
      cases h : lookupBucket acc k with
      | some b =>
        simp only [h, hkp, hkc, Option.some_inj, Bucket.mk.injEq]
        omega
      | none =>
        simp only [h, hkp, hkc]
        rw [if_neg (by omega)]
    · have hfil : (fun i => decide (keyOf i = k)) it = false := by
        simp
        intro h
        exact absurd h.symm hk
      have hkp : keyPrice keyOf (it :: rest) k = keyPrice keyOf rest k := by
        simp [keyPrice, List.filter_cons, hfil]
      have hkc : keyCount keyOf (it :: rest) k = keyCount keyOf rest k := by
        simp [keyCount, List.filter_cons, hfil]
      rw [if_neg hk, hkp, hkc]

theorem lookupBucket_groupBy (keyOf : EnrichedItem → String)
    (items : List EnrichedItem) (k : String) :
    lookupBucket (groupBy keyOf items) k =
      if keyCount keyOf items k = 0 then none
      else some ⟨keyPrice keyOf items k, keyCount keyOf items k⟩ := by
  have h := lookupBucket_groupFold keyOf items [] k
  simpa [groupBy, lookupBucket] using h

theorem lookupBucket_eq_none_iff (acc : List (String × Bucket)) (k : String) :
    lookupBucket acc k = none ↔ k ∉ acc.map Prod.fst := by
  induction acc with
  | nil => simp [lookupBucket]
  | cons q rest ih =>
    by_cases h : q.1 = k
    · simp [lookupBucket, h]
    · simp only [lookupBucket, h, if_false, ih, List.map_cons, List.mem_cons]
      constructor
      · intro hn hmem
        rcases hmem with heq | hmem'
        · exact h heq.symm
        · exact hn hmem'
      · intro hn hmem
        exact hn (Or.inr hmem)

theorem keys_addToBucket (acc : List (String × Bucket)) (k : String) (p : Int) :
    (addToBucket acc k p).map Prod.fst =
      match lookupBucket acc k with
      | some _ => acc.map Prod.fst
      | none => acc.map Prod.fst ++ [k] := by
  induction acc with
  | nil => simp [addToBucket, lookupBucket]
  | cons q rest ih =>
    match q with
    | (k₀, b₀) =>
      by_cases h : k₀ = k
      · simp [addToBucket, lookupBucket, h]
      · simp only [addToBucket, h, if_false, lookupBucket, List.map_cons]
        rw [ih]
        match lookupBucket rest k with
        | some _ => simp
        | none => simp

theorem nodup_keys_addToBucket (acc : List (String × Bucket)) (k : String)
    (p : Int) (h : (acc.map Prod.fst).Nodup) :
    ((addToBucket acc k p).map Prod.fst).Nodup := by
  rw [keys_addToBucket]
  match hl : lookupBucket acc k with
  | some _ => exact h
  | none =>
    have hk : k ∉ acc.map Prod.fst := (lookupBucket_eq_none_iff acc k).mp hl
    simp only [List.nodup_append, List.nodup_cons]
    refine ⟨h, by simp, ?_⟩
    intro a ha
    simp only [List.mem_singleton]
    intro heq
    exact hk (heq ▸ ha)

theorem nodup_keys_groupBy (keyOf : EnrichedItem → String)
    (items : List EnrichedItem) :
    ((groupBy keyOf items).map Prod.fst).Nodup := by
  suffices h : ∀ acc : List (String × Bucket), (acc.map Prod.fst).Nodup →
      (((items.foldl (fun acc it => addToBucket acc (keyOf it) it.price) acc)).map
        Prod.fst).Nodup by
    exact h [] (by simp)
  induction items with
  | nil => intro acc hacc; simpa using hacc
  | cons it rest ih =>
    intro acc hacc
    simp only [List.foldl_cons]
    exact ih _ (nodup_keys_addToBucket acc (keyOf it) it.price hacc)

theorem lookupBucket_eq_some_of_mem (acc : List (String × Bucket))
    (hnd : (acc.map Prod.fst).Nodup) (k : String) (b : Bucket)
    (hmem : (k, b) ∈ acc) : lookupBucket acc k = some b := by
  induction acc with
  | nil => simp at hmem
  | cons q rest ih =>
    rcases List.mem_cons.mp hmem with heq | hmem'
    · rw [← heq]
      simp [lookupBucket]
    · have hq : ¬ q.1 = k := by
        intro hqk
        have hk : k ∈ rest.map Prod.fst :=
          List.mem_map.mpr ⟨(k, b), hmem', rfl⟩
        simp only [List.map_cons, List.nodup_cons] at hnd
        exact hnd.1 (hqk ▸ hk)
      simp only [lookupBucket, hq, if_false]
      exact ih (by simp only [List.map_cons, List.nodup_cons] at hnd; exact hnd.2) hmem'

/-- Every bucket of a grouping holds exactly the aggregate price and
count of the items sent to its key. -/
theorem mem_groupBy_eq (keyOf : EnrichedItem → String)
    (items : List EnrichedItem) (k : String) (b : Bucket)
    (hmem : (k, b) ∈ groupBy keyOf items) :
    b = ⟨keyPrice keyOf items k, keyCount keyOf items k⟩ := by
  have h := lookupBucket_eq_some_of_mem _ (nodup_keys_groupBy keyOf items) k b hmem
  rw [lookupBucket_groupBy] at h
  by_cases hc : keyCount keyOf items k = 0
  · rw [if_pos hc] at h; cases h
  · rw [if_neg hc] at h
    injection h with h
    exact h.symm

theorem mem_keys_groupBy (keyOf : EnrichedItem → String)
    (items : List EnrichedItem) (k : String) :
    k ∈ (groupBy keyOf items).map Prod.fst ↔ k ∈ items.map keyOf := by
  have hnone : lookupBucket (groupBy keyOf items) k = none ↔
      keyCount keyOf items k = 0 := by
    rw [lookupBucket_groupBy]
    by_cases hc : keyCount keyOf items k = 0
    · simp [hc]
    · simp [hc]
  have hcount : keyCount keyOf items k = 0 ↔ k ∉ items.map keyOf := by
    simp only [keyCount, List.length_eq_zero, List.filter_eq_nil_iff,
      decide_eq_true_eq, List.mem_map, not_exists]
    constructor
    · rintro h it ⟨hit, hk⟩
      exact h it hit hk
    · intro h it hit hk
      exact h it ⟨hit, hk⟩
  have h2 : (k ∉ (groupBy keyOf items).map Prod.fst) ↔ (k ∉ items.map keyOf) := by
    rw [← lookupBucket_eq_none_iff, hnone, hcount]
  exact not_iff_not.mp h2

/-! ## Report ordering (`.sort((a, b) => b[1].price - a[1].price)`,
lines 210-212 and 308-310)

ECMAScript `Array.prototype.sort` is stable and orders by the
comparator, which here compares bucket prices only.  The result of any
stable sort under a total preorder is unique, so it is computed by a
stable insertion sort on the same ordering. -/

/-- Insert an entry in front of the first entry of not-larger price. -/
def insertBucket (x : String × Bucket) :
    List (String × Bucket) → List (String × Bucket)
  | [] => [x]
  | y :: ys => if y.2.price ≤ x.2.price then x :: y :: ys else y :: insertBucket x ys

/-- The sorted bucket list the report loops iterate over. -/
def sortBuckets : List (String × Bucket) → List (String × Bucket)
  | [] => []
  | x :: xs => insertBucket x (sortBuckets xs)

theorem insertBucket_perm (x : String × Bucket) (l : List (String × Bucket)) :
    (insertBucket x l).Perm (x :: l) := by
  induction l with
  | nil => simp [insertBucket]
  | cons y ys ih =>
    by_cases h : y.2.price ≤ x.2.price
    · simp [insertBucket, h]
    · simp only [insertBucket, h, if_false]
      exact (List.Perm.cons y ih).trans (List.Perm.swap x y ys)

theorem sortBuckets_perm (l : List (String × Bucket)) :
    (sortBuckets l).Perm l := by
  induction l with
  | nil => simp [sortBuckets]
  | cons x xs ih =>
    exact (insertBucket_perm x (sortBuckets xs)).trans (List.Perm.cons x ih)

theorem mem_insertBucket (x z : String × Bucket) (l : List (String × Bucket)) :
    z ∈ insertBucket x l ↔ z = x ∨ z ∈ l :=
  by simpa using (insertBucket_perm x l).mem_iff

theorem insertBucket_sorted (x : String × Bucket) (l : List (String × Bucket))
    (h : l.Pairwise (fun a b => b.2.price ≤ a.2.price)) :
    (insertBucket x l).Pairwise (fun a b => b.2.price ≤ a.2.price) := by
  induction l with
  | nil => simp [insertBucket]
  | cons y ys ih =>
    rcases List.pairwise_cons.mp h with ⟨hy, hys⟩
    by_cases hc : y.2.price ≤ x.2.price
    · rw [insertBucket, if_pos hc]
      refine List.pairwise_cons.mpr ⟨?_, h⟩
      intro z hz
      rcases List.mem_cons.mp hz with rfl | hz'
      · exact hc
      · exact le_trans (hy z hz') hc
    · rw [insertBucket, if_neg hc]
      refine List.pairwise_cons.mpr ⟨?_, ih hys⟩
      intro z hz
      rcases (mem_insertBucket x z ys).mp hz with rfl | hz'
      · omega
      · exact hy z hz'

theorem sortBuckets_sorted (l : List (String × Bucket)) :
    (sortBuckets l).Pairwise (fun a b => b.2.price ≤ a.2.price) := by
  induction l with
  | nil => simp [sortBuckets]
  | cons x xs ih => exact insertBucket_sorted x (sortBuckets xs) ih

theorem filter_insertBucket (x : String × Bucket) (l : List (String × Bucket))
    (q : Int) :
    (insertBucket x l).filter (fun p => decide (p.2.price = q)) =
      if x.2.price = q then
        x :: l.filter (fun p => decide (p.2.price = q))
      else l.filter (fun p => decide (p.2.price = q)) := by
  induction l with
  | nil =>
    by_cases hx : x.2.price = q
    · simp [insertBucket, hx]
    · simp [insertBucket, hx]
  | cons y ys ih =>
    by_cases hc : y.2.price ≤ x.2.price
    · rw [insertBucket, if_pos hc]
      by_cases hx : x.2.price = q
      · simp [List.filter_cons, hx]
      · simp [List.filter_cons, hx]
    · rw [insertBucket, if_neg hc]
      by_cases hx : x.2.price = q
      · have hy : ¬ y.2.price = q := by omega
        rw [if_pos hx]
        simp only [List.filter_cons, hy, decide_eq_true_eq, if_neg hy]
        simp only [decide_eq_false hy, Bool.false_eq_true, if_false]
        rw [ih, if_pos hx]
      · rw [if_neg hx]
        by_cases hy : y.2.price = q
        · simp only [List.filter_cons, decide_eq_true hy, if_true]
          rw [ih, if_neg hx]
        · simp only [List.filter_cons, decide_eq_false hy, Bool.false_eq_true,
            if_false]
          rw [ih, if_neg hx]

/-- Stability: the comparator compares prices only, so entries of equal
price keep their original relative order (for `Object.entries` output,
property insertion order). -/
theorem sortBuckets_stable (l : List (String × Bucket)) (q : Int) :
    (sortBuckets l).filter (fun p => decide (p.2.price = q)) =
      l.filter (fun p => decide (p.2.price = q)) := by
  induction l with
  | nil => simp [sortBuckets]
  | cons x xs ih =>
    rw [sortBuckets, filter_insertBucket]
    by_cases hx : x.2.price = q
    · rw [if_pos hx, ih]
      simp [List.filter_cons, hx]
    · rw [if_neg hx, ih]
      simp [List.filter_cons, hx]

/-! ## Report dimensions and CSV export (`main`, lines 169-445) -/

/-- Accessor for the grouping key of the by-name reports. -/
def nameOf (it : EnrichedItem) : String := it.item.market_hash_name

/-- `itemsByBot` (lines 196-207). -/
def itemsByBot (items : List EnrichedItem) : List (String × Bucket) :=
  groupBy (fun it => it.steam_id) items

/-- `orderedItemsByBot` (lines 210-212). -/
def orderedItemsByBot (items : List EnrichedItem) : List (String × Bucket) :=
  sortBuckets (itemsByBot items)

/-- `itemsByMarketHashName` (lines 292-305): only items individually
cheaper than 10000 minor units enter this grouping. -/
def itemsByMarketHashName (items : List EnrichedItem) : List (String × Bucket) :=
  groupBy nameOf (items.filter (fun it => decide (it.price < 10000)))

/-- `orderedItemsByMarketHashName` (lines 308-310). -/
def orderedItemsByMarketHashName (items : List EnrichedItem) :
    List (String × Bucket) :=
  sortBuckets (itemsByMarketHashName items)

/-- The by-name entries that actually get a log line: the loop of lines
312-317 skips buckets whose summed price is below `100 * 100`. -/
def byNameReportEntries (items : List EnrichedItem) : List (String × Bucket) :=
  (orderedItemsByMarketHashName items).filter
    (fun p => decide (¬ p.2.price < 100 * 100))

/-- `itemsByMarketHashName2`, the grouping feeding the CSV (lines
413-424): all items, keyed by name. -/
def itemsByMarketHashName2 (items : List EnrichedItem) : List (String × Bucket) :=
  groupBy nameOf items

/-- One CSV data row (line 440): name, quantity, constant date. -/
def csvRow (p : String × Bucket) : String :=
  p.1 ++ "," ++ toString p.2.count ++ ",01/01/2019"

/-- All CSV data rows, in grouping order (lines 438-442). -/
def csvRows (items : List EnrichedItem) : List String :=
  (itemsByMarketHashName2 items).map csvRow

/-- The header literal of line 436. -/
def csvHeader : String := "name,qty,date\n"

/-- The full text written to `items.csv` (line 444). -/
def csvFile (items : List EnrichedItem) : String :=
  csvHeader ++ String.intercalate "\n" (csvRows items)

/-! ## Concrete fixtures used by witnesses and counterexamples -/

/-- A catalog knowing only the name "X" (buff price 250). -/
def catalog1 : PriceCatalog :=
  fun n => if n = "X" then some ⟨some ⟨250⟩⟩ else none

/-- A raw entry whose name "X" is in `catalog1`. -/
def rawX : RawItem := ⟨"a1", "d1", some ⟨"X", "Rifle", none⟩, none⟩

/-- A raw entry whose name "Y" is missing from `catalog1`. -/
def rawY : RawItem := ⟨"a2", "d2", some ⟨"Y", "Rifle", none⟩, none⟩

/-- Attempt outcomes failing twice, then succeeding with 42. -/
def exampleAttempts (j : Nat) : Except String Nat :=
  if j < 2 then .error "boom" else .ok 42

/-! ## Claim theorems -/

/-- C1, counterexample: with one raw item whose descriptor is present
but whose name "Y" has no `catalog1` entry, enrichment outputs nothing
at all — the item is dropped (with a diagnostic), not included at price
0 as the claim states. -/
theorem C1_missing_entry_drops_item :
    enrichFile catalog1 "111" ⟨[rawY]⟩ = [] ∧
    fileDiagnostics catalog1 ⟨[rawY]⟩ = ["Price not found for item: Y"] := by
  constructor <;> rfl

/-- C1, amended: an item with a present descriptor is included in the
enrichment output iff its name has a PriceCatalog entry; a missing
catalog entry causes the item to be skipped and recorded as a
diagnostic; an included item's price is the entry's buff price, or 0
when the entry has no buff record. -/
theorem C1_enrichment_inclusion (prices : PriceCatalog) (sid : String)
    (inv : Inventory) :
    (∀ x ∈ enrichFile prices sid inv,
        ∃ entry, prices x.item.market_hash_name = some entry ∧
          x.price = buffPrice entry) ∧
    (∀ it ∈ inv.items, ∀ desc, it.item = some desc →
        (∀ entry, prices desc.market_hash_name = some entry →
            ∃ x ∈ enrichFile prices sid inv,
              x.asset_id = it.asset_id ∧ x.d = it.d ∧ x.item = desc ∧
                x.steam_id = sid ∧ x.price = buffPrice entry) ∧
        (prices desc.market_hash_name = none →
            ("Price not found for item: " ++ desc.market_hash_name) ∈
              fileDiagnostics prices inv)) := by
  constructor
  · intro x hx
    obtain ⟨it, _, hit⟩ := List.mem_filterMap.mp hx
    obtain ⟨desc, entry, _, hentry, rfl⟩ :=
      (enrichEntry_some_iff prices sid it x).mp hit
    exact ⟨entry, hentry, rfl⟩
  · intro it hit desc hdesc
    constructor
    · intro entry hentry
      refine ⟨⟨it.asset_id, it.d, desc, it.addons, sid,
        inspectUrl sid it.asset_id it.d, buffPrice entry⟩, ?_, rfl, rfl, rfl, rfl, rfl⟩
      exact List.mem_filterMap.mpr ⟨it, hit,
        (enrichEntry_some_iff prices sid it _).mpr ⟨desc, entry, hdesc, hentry, rfl⟩⟩
    · intro hnone
      refine List.mem_filterMap.mpr ⟨it, hit, ?_⟩
      simp [entryDiagnostic, hdesc, hnone]

/-- C1, witness: `C1_enrichment_inclusion` at `catalog1` and an
inventory holding `rawX` (catalog entry present) and `rawY` (absent). -/
theorem C1_enrichment_inclusion_witness :
    (∃ x ∈ enrichFile catalog1 "111" ⟨[rawX, rawY]⟩,
        x.asset_id = rawX.asset_id ∧ x.d = rawX.d ∧
          x.item = Descriptor.mk "X" "Rifle" none ∧ x.steam_id = "111" ∧
          x.price = buffPrice ⟨some ⟨250⟩⟩) ∧
    ("Price not found for item: " ++ "Y") ∈
      fileDiagnostics catalog1 ⟨[rawX, rawY]⟩ := by
  have h := (C1_enrichment_inclusion catalog1 "111" ⟨[rawX, rawY]⟩).2
  have hX := ((h rawX (by simp) ⟨"X", "Rifle", none⟩ rfl).1 ⟨some ⟨250⟩⟩ (by rfl))
  have hY := ((h rawY (by simp) ⟨"Y", "Rifle", none⟩ rfl).2 (by rfl))
  exact ⟨hX, hY⟩

/-- C2: the retry loop returns the first successful attempt's result
immediately (making exactly `k + 1` attempts when attempt `k` is the
first success), and when all `n` attempts fail it propagates the last
attempt's error unchanged. -/
theorem C2_retry_contract (fn : Nat → Except ε α) (n : Nat) (hn : 1 ≤ n) :
    (∀ k a, k < n → fn k = .ok a → (∀ j, j < k → ∃ e, fn j = .error e) →
        retry fn n = some (.ok a) ∧ attemptsMade fn n = k + 1) ∧
    (∀ e, (∀ j, j < n → ∃ e', fn j = .error e') → fn (n - 1) = .error e →
        retry fn n = some (.error e)) := by
  constructor
  · intro k a hk hok herr
    have h := retryGo_first_success fn k 0 n a hk (by simpa using hok)
      (by intro j hj; simpa using herr j hj)
    exact ⟨h.1, h.2⟩
  · intro e herr hlast
    exact retryGo_all_fail fn n 0 e (by omega) (by intro j hj; simpa using herr j hj)
      (by simpa using hlast)

/-- C2, witness: attempts failing twice then succeeding with 42, with
limit 3: the result is the attempt-3 success after exactly 3 attempts;
and a variant where the limit is 2 surfaces the final error. -/
theorem C2_retry_contract_witness :
    (retry exampleAttempts 3 = some (.ok 42) ∧ attemptsMade exampleAttempts 3 = 3) ∧
    retry exampleAttempts 2 = some (.error "boom") := by
  constructor
  · exact (C2_retry_contract exampleAttempts 3 (by omega)).1 2 42 (by omega) rfl
      (fun j hj => ⟨"boom", by unfold exampleAttempts; rw [if_pos hj]⟩)
  · exact (C2_retry_contract exampleAttempts 2 (by omega)).2 "boom"
      (fun j hj => ⟨"boom", by unfold exampleAttempts; rw [if_pos (by omega)]⟩)
      (by rfl)

/-- C3: the scheduler partitions the id list into consecutive nonempty
chunks of at most `batchSize` in list order (their concatenation is the
id list); 25 ids at batch size 10 give chunk sizes 10, 10, 5; and the
batch phase's sequential fold over the chunks is exactly the in-order
per-id fold, so every operation of chunk N settles before chunk N+1
starts. -/
theorem C3_batch_partition (ids : List α) (b : Nat) (hb : 0 < b) :
    (chunks ids b).flatten = ids ∧
    (∀ c ∈ chunks ids b, c.length ≤ b ∧ c ≠ []) ∧
    (chunks (List.range 25) 10).map List.length = [10, 10, 5] ∧
    (∀ (fetchOne : String → Except String Inventory) (cache : CacheState)
        (sids : List String),
        processInBatches fetchOne cache sids b =
          sids.foldl (processOne fetchOne) (cache, [])) := by
  refine ⟨chunks_join ids b hb, chunks_mem ids b hb, by decide, ?_⟩
  intro fetchOne cache sids
  unfold processInBatches
  rw [chunks_join sids b hb]

/-- C3, witness: `C3_batch_partition` at the id list `[0, 1, 2]` with
batch size 2. -/
theorem C3_batch_partition_witness :
    (chunks ([0, 1, 2] : List Nat) 2).flatten = [0, 1, 2] ∧
    (∀ c ∈ chunks ([0, 1, 2] : List Nat) 2, c.length ≤ 2 ∧ c ≠ []) ∧
    (chunks (List.range 25) 10).map List.length = [10, 10, 5] ∧
    (∀ (fetchOne : String → Except String Inventory) (cache : CacheState)
        (sids : List String),
        processInBatches fetchOne cache sids 2 =
          sids.foldl (processOne fetchOne) (cache, [])) :=
  C3_batch_partition [0, 1, 2] 2 (by omega)

/-- C4: an id whose (retried) fetch fails on a cache miss is caught: its
id and failure reason are in the run's log, every pre-existing cache
entry is untouched, and every other id that fetches successfully still
gets its dump stored — no per-id failure aborts the run. -/
theorem C4_per_id_failure_is_logged (fetchOne : String → Except String Inventory)
    (cache : CacheState) (ids : List String) (b : Nat) (hb : 0 < b)
    (id e : String) (hmem : id ∈ ids) (hmiss : lookupFile cache id = none)
    (hfail : fetchOne id = .error e) :
    (id, e) ∈ (processInBatches fetchOne cache ids b).2 ∧
    (∀ sid v, lookupFile cache sid = some v →
        lookupFile (processInBatches fetchOne cache ids b).1 sid = some v) ∧
    (∀ id' inv, id' ∈ ids → lookupFile cache id' = none → fetchOne id' = .ok inv →
        lookupFile (processInBatches fetchOne cache ids b).1 id' = some (some inv)) := by
  unfold processInBatches
  rw [chunks_join ids b hb]
  refine ⟨foldl_processOne_logs_failure fetchOne ids (cache, []) id e hmem hmiss hfail,
    ?_, ?_⟩
  · intro sid v hv
    exact foldl_processOne_preserves fetchOne ids (cache, []) sid v hv
  · intro id' inv hmem' hmiss' hok'
    exact foldl_processOne_stores_success fetchOne ids (cache, []) id' inv hmem' hmiss' hok'

/-- A fetch that fails for id "1" and succeeds for everything else. -/
def exampleFetch (sid : String) : Except String Inventory :=
  if sid = "1" then .error "network down" else .ok ⟨[]⟩

/-- C4, witness: `C4_per_id_failure_is_logged` with ids `["1", "2"]`,
empty initial cache and batch size 10: id "1" is logged with its reason
and id "2" still gets its dump stored. -/
theorem C4_per_id_failure_is_logged_witness :
    ("1", "network down") ∈ (processInBatches exampleFetch [] ["1", "2"] 10).2 ∧
    lookupFile (processInBatches exampleFetch [] ["1", "2"] 10).1 "2" =
      some (some ⟨[]⟩) := by
  have h := C4_per_id_failure_is_logged exampleFetch [] ["1", "2"] 10 (by omega)
    "1" "network down" (by simp) rfl (by rfl)
  exact ⟨h.1, h.2.2 "2" ⟨[]⟩ (by simp) rfl (by rfl)⟩

/-- The single enriched item used by the CSV fixtures: name "A",
price 777. -/
def exItemA : EnrichedItem :=
  ⟨"a1", "d1", ⟨"A", "Sticker", none⟩, none, "111",
    inspectUrl "111" "a1" "d1", 777⟩

/-- C5, counterexample: for one enriched item named "A" with price 777,
the single CSV data row is `A,1,01/01/2019`, whose text cannot contain
the aggregate price 777 in any rendering — the digit `7` never occurs
in it; the third field is a constant date, so the claim that each row
contains the aggregate price fails. -/
theorem C5_row_lacks_price :
    csvRows [exItemA] = ["A,1,01/01/2019"] ∧
    keyPrice nameOf [exItemA] "A" = 777 ∧
    '7' ∉ "A,1,01/01/2019".data := by
  refine ⟨by decide, by decide, by decide⟩

/-- C5, amended: the CSV is a header row plus exactly one row per
distinct item name (keys are duplicate-free and are exactly the names
occurring among the EnrichedItems); each row carries that name, the
count of items with that name, and the constant date `01/01/2019` — the
aggregate price is computed in the grouping but never written. -/
theorem C5_csv_shape (items : List EnrichedItem) :
    ((itemsByMarketHashName2 items).map Prod.fst).Nodup ∧
    (∀ k, k ∈ (itemsByMarketHashName2 items).map Prod.fst ↔
        k ∈ items.map nameOf) ∧
    (∀ k bu, (k, bu) ∈ itemsByMarketHashName2 items →
        bu.count = keyCount nameOf items k ∧
        bu.price = keyPrice nameOf items k ∧
        csvRow (k, bu) =
          k ++ "," ++ toString (keyCount nameOf items k) ++ ",01/01/2019") ∧
    csvFile items =
      "name,qty,date\n" ++ String.intercalate "\n" ((itemsByMarketHashName2 items).map csvRow) := by
  refine ⟨nodup_keys_groupBy nameOf items, fun k => mem_keys_groupBy nameOf items k,
    ?_, rfl⟩
  intro k bu hmem
  have h := mem_groupBy_eq nameOf items k bu hmem
  rw [h]
  exact ⟨rfl, rfl, rfl⟩

/-- C5, witness: `C5_csv_shape` at the one-item list `[exItemA]`,
instantiating the per-row part at its bucket `("A", ⟨777, 1⟩)`. -/
theorem C5_csv_shape_witness :
    (⟨777, 1⟩ : Bucket).count = keyCount nameOf [exItemA] "A" ∧
    (⟨777, 1⟩ : Bucket).price = keyPrice nameOf [exItemA] "A" ∧
    csvRow ("A", ⟨777, 1⟩) =
      "A" ++ "," ++ toString (keyCount nameOf [exItemA] "A") ++ ",01/01/2019" :=
  (C5_csv_shape [exItemA]).2.2.1 "A" ⟨777, 1⟩ (by decide)

/-- A dump directory holding one file whose content `JSON.parse`
rejects. -/
def corruptCache : CacheState := [("42", none)]

/-- C6: evaluating the pipeline on a dump directory with one corrupt
cached file: the batch phase tolerates it (the per-id handler logs it),
but `processData` has no handler for the `JSON.parse` failure, so the
whole run errors out and no reports are produced — contradicting the
claim that cache corruption must not crash the run. -/
theorem C6_corrupt_cache_crashes_run :
    runEnriched (fun _ => none) (fun _ => .ok ⟨[]⟩) corruptCache ["42"] 10 =
      .error "Unexpected token in JSON: 42" ∧
    (processInBatches (fun _ => .ok ⟨[]⟩) corruptCache ["42"] 10).2 =
      [("42", "Unexpected token in JSON")] := by
  constructor <;> rfl

/-- The C7 price catalog: `{"AK-47 | Redline": {buff: {price: 1500}}}`. -/
def catalog7 : PriceCatalog :=
  fun n => if n = "AK-47 | Redline" then some ⟨some ⟨1500⟩⟩ else none

/-- The C7 inventory: a single item named "AK-47 | Redline". -/
def inv7 : Inventory :=
  ⟨[⟨"36273693063", "1048292115792704737",
    some ⟨"AK-47 | Redline", "Rifle", some "AK-47"⟩, none⟩]⟩

/-- The C7 enriched items. -/
def items7 : List EnrichedItem := enrichFile catalog7 "76561198023809011" inv7

/-- C7, counterexample: the enriched price is 1500 and the by-name
bucket is `⟨1500, 1⟩` as the claim states, but no line for the name is
emitted: the report loop skips buckets whose total is below
`100 * 100 = 10000` minor units, and 1500 < 10000. -/
theorem C7_no_line_emitted :
    items7.map EnrichedItem.price = [1500] ∧
    ("AK-47 | Redline", (⟨1500, 1⟩ : Bucket)) ∉ byNameReportEntries items7 := by
  refine ⟨by decide, by decide⟩

/-- C7, amended: with catalog `{"AK-47 | Redline": {buff: {price:
1500}}}` and one item of that name, enrichment assigns price 1500 and
the by-name bucket holds total 1500 with count 1, but the by-name
report emits no line at all for this data because its presentation
threshold suppresses buckets whose total is below 10000 minor units. -/
theorem C7_price_and_bucket :
    items7.map EnrichedItem.price = [1500] ∧
    lookupBucket (itemsByMarketHashName items7) "AK-47 | Redline" =
      some ⟨1500, 1⟩ ∧
    byNameReportEntries items7 = [] := by
  refine ⟨by decide, by decide, by decide⟩

/-- Enriched fixture named "b", price 100 (first occurrence). -/
def exItemB8 : EnrichedItem :=
  ⟨"b1", "d1", ⟨"b", "Sticker", none⟩, none, "111",
    inspectUrl "111" "b1" "d1", 100⟩

/-- Enriched fixture named "a", price 100 (second occurrence). -/
def exItemA8 : EnrichedItem :=
  ⟨"a2", "d2", ⟨"a", "Sticker", none⟩, none, "111",
    inspectUrl "111" "a2" "d2", 100⟩

/-- The equal-price two-bucket grouping of the two fixtures, in
insertion order `b`, `a`. -/
def ex8buckets : List (String × Bucket) :=
  itemsByMarketHashName2 [exItemB8, exItemA8]

/-- Ordering asserted by the claim: descending summed price with ties
in ascending key order. -/
def claimOrdered (l : List (String × Bucket)) : Prop :=
  l.Pairwise (fun x y => y.2.price < x.2.price ∨
    (x.2.price = y.2.price ∧ x.1 < y.1))

/-- C8, counterexample: two buckets of equal summed price whose
insertion order is `b` before `a` come out of the report sort still as
`b` before `a` — the comparator `b[1].price - a[1].price` never
consults the key, so equal-price buckets are not reordered into
ascending key order. -/
theorem C8_ties_not_key_sorted :
    (sortBuckets ex8buckets).map Prod.fst = ["b", "a"] ∧
    ¬ claimOrdered (sortBuckets ex8buckets) := by
  constructor
  · decide
  · intro h
    have hs : sortBuckets ex8buckets = [("b", ⟨100, 1⟩), ("a", ⟨100, 1⟩)] := by
      decide
    unfold claimOrdered at h
    rw [hs] at h
    have h2 := (List.pairwise_cons.mp h).1 ("a", ⟨100, 1⟩)
      (List.mem_cons_self _ _)
    rcases h2 with hlt | ⟨heq, hstr⟩
    · exact absurd hlt (by decide)
    · refine absurd hstr ?_
      show ¬ ("b" < "a")
      rw [String.lt_iff_toList_lt]
      decide

/-- C8, amended: the report sort is a permutation of the buckets,
ordered by descending summed price; buckets of equal summed price keep
their original relative order (stability of the comparator sort), which
for the grouping output is first-occurrence order — deterministic, but
not ascending key order. -/
theorem C8_sort_deterministic (l : List (String × Bucket)) :
    (sortBuckets l).Perm l ∧
    (sortBuckets l).Pairwise (fun x y => y.2.price ≤ x.2.price) ∧
    (∀ q : Int, (sortBuckets l).filter (fun p => decide (p.2.price = q)) =
        l.filter (fun p => decide (p.2.price = q))) :=
  ⟨sortBuckets_perm l, sortBuckets_sorted l, fun q => sortBuckets_stable l q⟩

/-- C9: for any grouping dimension applied to all items (no exclusion),
the sum of the bucket price totals equals the total value of all
enriched items — the code's running total of line 187. -/
theorem C9_bucket_totals_preserve_sum (keyOf : EnrichedItem → String)
    (items : List EnrichedItem) :
    sumBucketPrices (groupBy keyOf items) = totalValue items := by
  have h := sumBucketPrices_groupFold keyOf items []
  rw [totalValue_eq_sum]
  simpa [groupBy, sumBucketPrices] using h

/-- C10: whatever reaches the dump directory is what enrichment reads:
the run succeeds (given the pre-existing dumps decode) and its output
contains every item enriched from every pre-existing dump file — also
for ids absent from the current id list — while an id in the list with
no dump file and no successful fetch contributes no items and causes no
error. -/
theorem C10_enrichment_reads_dump_dir (prices : PriceCatalog)
    (fetchOne : String → Except String Inventory) (cache : CacheState)
    (ids : List String) (b : Nat) (_hb : 0 < b)
    (hclean : ∀ p ∈ cache, p.2 ≠ none) :
    ∃ items, runEnriched prices fetchOne cache ids b = .ok items ∧
      (∀ sid inv, (sid, some inv) ∈ cache →
          ∀ x ∈ enrichFile prices sid inv, x ∈ items) ∧
      (∀ id, id ∈ ids → lookupFile cache id = none →
          (∀ inv, fetchOne id ≠ .ok inv) →
          ∀ x ∈ items, x.steam_id ≠ id) := by
  obtain ⟨cext, lext, hc, hl, hp⟩ :=
    foldl_processOne_shape fetchOne ((chunks ids b).flatten) (cache, [])
  have hfc : (processInBatches fetchOne cache ids b).1 = cache ++ cext := by
    unfold processInBatches
    simpa using hc
  have hcleanF : ∀ p ∈ cache ++ cext, p.2 ≠ none := by
    intro p hp'
    rcases List.mem_append.mp hp' with h1 | h2
    · exact hclean p h1
    · obtain ⟨_, inv, hinv, _⟩ := hp p h2
      simp [hinv]
  refine ⟨okItems prices (cache ++ cext), ?_, ?_, ?_⟩
  · unfold runEnriched
    rw [hfc]
    exact processData_clean prices (cache ++ cext) hcleanF
  · intro sid inv hmem x hx
    exact mem_okItems prices _ sid inv x (List.mem_append.mpr (Or.inl hmem)) hx
  · intro id hid hnone hnok x hx hsid
    obtain ⟨sid', inv', hmem', hx', hs⟩ := okItems_source prices _ x hx
    have hsid' : sid' = id := by rw [← hs, hsid]
    rw [hsid'] at hmem'
    rcases List.mem_append.mp hmem' with h1 | h2
    · exact ((lookupFile_eq_none_iff cache id).mp hnone) (some inv') h1
    · obtain ⟨_, inv'', hinv'', hok''⟩ := hp _ h2
      exact hnok inv'' (by simpa using hok'')

/-- A dump file left by an earlier run for id "999", holding one item
named "Z". -/
def staleInv : Inventory := ⟨[⟨"z1", "dz", some ⟨"Z", "Sticker", none⟩, none⟩]⟩

/-- A catalog knowing the name "Z" (buff price 500). -/
def catalogZ : PriceCatalog :=
  fun n => if n = "Z" then some ⟨some ⟨500⟩⟩ else none

/-- The dump directory holding only the stale file of id "999". -/
def staleCache : CacheState := [("999", some staleInv)]

/-- A fetch that fails for every id. -/
def failFetch : String → Except String Inventory := fun _ => .error "down"

/-- C10, witness: `C10_enrichment_reads_dump_dir` with the stale dump of
id "999" (absent from the id list `["1"]`) and a fetch that always
fails: the run still succeeds, the stale items are in the output, and
id "1" contributes nothing. -/
theorem C10_enrichment_reads_dump_dir_witness :
    ∃ items, runEnriched catalogZ failFetch staleCache ["1"] 10 = .ok items ∧
      (∀ sid inv, (sid, some inv) ∈ staleCache →
          ∀ x ∈ enrichFile catalogZ sid inv, x ∈ items) ∧
      (∀ id, id ∈ ["1"] → lookupFile staleCache id = none →
          (∀ inv, failFetch id ≠ .ok inv) →
          ∀ x ∈ items, x.steam_id ≠ id) :=
  C10_enrichment_reads_dump_dir catalogZ failFetch staleCache ["1"] 10
    (by omega) (by decide)

end Opskins
